import Mathlib

/-!
Verification of the pine-backtester core (backend/routers/backtest.py and
backend/routers/optimize.py) against its natural-language specification.

Modelling conventions:
* Python floats are modelled by exact rationals `ℚ`; `round(x, n)` is modelled
  by round-half-to-even on `x * 10^n` (Python's documented rounding mode).
* Python `ZeroDivisionError` / `ValueError` sites in the metrics calculators
  are modelled with `Except PyErr`.
* Lists model Python lists; Python slice semantics (including negative index
  clamping) are modelled by `pySlice`.
-/

namespace Pine

/- `Rat.add`, `Rat.mul`, `Rat.inv` and `Rat.sub` are `@[irreducible]` in
Batteries, which blocks `decide` on concrete rational computations; make them
semireducible for this file so concrete runs evaluate. -/
attribute [local semireducible] Rat.add Rat.mul Rat.inv Rat.sub

/-- Round-half-to-even of a rational to an integer (Python's `round` mode). -/
def roundHalfEven (q : ℚ) : ℤ :=
  let f := Int.fract q
  if f < 1/2 then ⌊q⌋
  else if 1/2 < f then ⌈q⌉
  else if 2 ∣ ⌊q⌋ then ⌊q⌋ else ⌊q⌋ + 1

/-- Model of Python `round(x, n)` for a non-negative number of decimals. -/
def pyRound (q : ℚ) (n : ℕ) : ℚ := (roundHalfEven (q * 10 ^ n) : ℚ) / 10 ^ n

/-- Python slice endpoint resolution: negative indices count from the end,
and endpoints are clamped to `[0, n]`. -/
def pySliceIdx (n : ℕ) (a : ℤ) : ℕ :=
  if a < 0 then (max 0 (n + a)).toNat else min a.toNat n

/-- Model of the Python slice `l[a:b]`. -/
def pySlice (l : List ℚ) (a b : ℤ) : List ℚ :=
  (l.take (pySliceIdx l.length b)).drop (pySliceIdx l.length a)

/-! ## Execution simulator: `run_sma_cross` (backend/routers/backtest.py)

The per-trade dict built by the source carries the keys
`entry_time, exit_time, entry_price, exit_price, side, pnl, pnl_pct, equity`.
The `Trade` structure below carries those fields plus four *ghost* fields
(`units`, `pnlExact`, `entryRaw`, `entryIdx`) recording internal simulator
state at the moment the trade was produced; they are needed to state sizing
and no-look-ahead properties and are not part of the source dict. -/

structure Bar where
  time : ℤ
  open_ : ℚ
  high : ℚ
  low : ℚ
  close : ℚ
  volume : ℚ
  deriving DecidableEq

structure Trade where
  entry_time : ℤ
  exit_time : ℤ
  entry_price : ℚ
  exit_price : ℚ
  side : String
  pnl : ℚ
  pnl_pct : ℚ
  equity : ℚ
  -- ghost fields (internal simulator state, not in the source dict):
  units : ℚ
  pnlExact : ℚ
  entryRaw : ℚ
  entryIdx : ℕ
  deriving DecidableEq

/-- The transient `position` dict (`entry`, `entry_time`, `units`, `comm_entry`),
plus the ghost fill-bar index. -/
structure Pos where
  entry : ℚ
  entry_time : ℤ
  units : ℚ
  comm_entry : ℚ
  entryIdx : ℕ
  deriving DecidableEq

/-- The execution-context fields of `run_sma_cross`'s signature. -/
structure Cfg where
  initial_capital : ℚ
  commission_value : ℚ
  commission_type : String
  qty_type : String
  qty_value : ℚ
  deriving DecidableEq

inductive Pending where
  | none
  | entry
  | exit
  deriving DecidableEq

structure SimSt where
  trades : List Trade
  pos : Option Pos
  equity : ℚ
  curve : List ℚ
  pending : Pending
  deriving DecidableEq

/-- Position size at entry (source lines 87-92). -/
def qtyUnits (cfg : Cfg) (equity price : ℚ) : ℚ :=
  if cfg.qty_type = "percent_of_equity" then equity * cfg.qty_value / 100 / price
  else if cfg.qty_type = "cash" then cfg.qty_value / price
  else cfg.qty_value

/-- Commission for one leg (source lines 94-96 / 109-111). -/
def commCalc (cfg : Cfg) (units price : ℚ) : ℚ :=
  if cfg.commission_type = "percent" then units * price * cfg.commission_value
  else cfg.commission_value

/-- Moving average confirmed at bar `i`: `sum(closes[i-p+1 : i+1]) / p`. -/
def maAt (closes : List ℚ) (p : ℕ) (i : ℕ) : ℚ :=
  (pySlice closes ((i : ℤ) - p + 1) ((i : ℤ) + 1)).sum / p

/-- Moving average confirmed at bar `i-1`: `sum(closes[i-p : i]) / p`. -/
def maPrevAt (closes : List ℚ) (p : ℕ) (i : ℕ) : ℚ :=
  (pySlice closes ((i : ℤ) - p) (i : ℤ)).sum / p

/-- Golden-cross condition confirmed on bar `i`'s close (source line 140). -/
def crossUp (closes : List ℚ) (fast slow : ℕ) (i : ℕ) : Bool :=
  decide (maPrevAt closes fast i ≤ maPrevAt closes slow i) &&
  decide (maAt closes slow i < maAt closes fast i)

/-- Death-cross condition confirmed on bar `i`'s close (source line 142). -/
def crossDown (closes : List ℚ) (fast slow : ℕ) (i : ℕ) : Bool :=
  decide (maPrevAt closes slow i ≤ maPrevAt closes fast i) &&
  decide (maAt closes fast i < maAt closes slow i)

/-- Step 1 of the loop body (source lines 84-131): execute the pending order
from the previous bar's signal at this bar's open; a stale pending signal is
cleared. -/
def simStep1 (cfg : Cfg) (opens : List ℚ) (times : List ℤ)
    (s : SimSt) (i : ℕ) : SimSt :=
  match s.pending, s.pos with
  | .entry, Option.none =>
      let price := opens.getD i 0
      let units := qtyUnits cfg s.equity price
      let ce := commCalc cfg units price
      { s with
        equity := s.equity - ce
        pos := some ⟨price, times.getD i 0, units, ce, i⟩
        pending := .none }
  | .exit, some p =>
      let price := opens.getD i 0
      let cx := commCalc cfg p.units price
      let gross := p.units * (price - p.entry)
      let pnlX := gross - p.comm_entry - cx
      let eq' := s.equity + gross - cx
      let t : Trade :=
        { entry_time := p.entry_time
          exit_time := times.getD i 0
          entry_price := pyRound p.entry 6
          exit_price := pyRound price 6
          side := "long"
          pnl := pyRound pnlX 4
          pnl_pct := pyRound ((price - p.entry) / p.entry * 100) 4
          equity := pyRound eq' 2
          units := p.units
          pnlExact := pnlX
          entryRaw := p.entry
          entryIdx := p.entryIdx }
      { trades := s.trades ++ [t]
        pos := Option.none
        equity := eq'
        curve := s.curve ++ [pyRound eq' 2]
        pending := .none }
  | _, _ => { s with pending := .none }

/-- Step 2 of the loop body (source lines 133-143): detect a signal on bar
`i`'s close, using only closes up to and including bar `i`. -/
def simSig (closes : List ℚ) (fast slow : ℕ) (s1 : SimSt) (i : ℕ) : SimSt :=
  if crossUp closes fast slow i && s1.pos.isNone then
    { s1 with pending := .entry }
  else if crossDown closes fast slow i && s1.pos.isSome then
    { s1 with pending := .exit }
  else s1

/-- One iteration of the main loop of `run_sma_cross` for bar `i`
(source lines 83-143). -/
def simStep (cfg : Cfg) (closes opens : List ℚ) (times : List ℤ)
    (fast slow : ℕ) (s : SimSt) (i : ℕ) : SimSt :=
  simSig closes fast slow (simStep1 cfg opens times s i) i

/-- Force-close of a position still open after the last bar
(source lines 146-166); the exit fills at the last bar's close. -/
def simClose (cfg : Cfg) (closes : List ℚ) (times : List ℤ) (s : SimSt) : SimSt :=
  match s.pos with
  | Option.none => s
  | some p =>
      let price := closes.getD (closes.length - 1) 0
      let cx := commCalc cfg p.units price
      let gross := p.units * (price - p.entry)
      let pnlX := gross - p.comm_entry - cx
      let eq' := s.equity + gross - cx
      let t : Trade :=
        { entry_time := p.entry_time
          exit_time := times.getD (times.length - 1) 0
          entry_price := pyRound p.entry 6
          exit_price := pyRound price 6
          side := "long"
          pnl := pyRound pnlX 4
          pnl_pct := pyRound ((price - p.entry) / p.entry * 100) 4
          equity := pyRound eq' 2
          units := p.units
          pnlExact := pnlX
          entryRaw := p.entry
          entryIdx := p.entryIdx }
      { trades := s.trades ++ [t]
        pos := Option.none
        equity := eq'
        curve := s.curve ++ [pyRound eq' 2]
        pending := .none }

def simInit (cfg : Cfg) : SimSt :=
  { trades := []
    pos := Option.none
    equity := cfg.initial_capital
    curve := [cfg.initial_capital]
    pending := .none }

/-- End state of `run_sma_cross` (loop over `range(slow, n)` then force-close). -/
def simEnd (klines : List Bar) (fast slow : ℕ) (cfg : Cfg) : SimSt :=
  let closes := klines.map (·.close)
  let opens := klines.map (·.open_)
  let times := klines.map (·.time)
  simClose cfg closes times
    ((List.range' slow (klines.length - slow)).foldl
      (simStep cfg closes opens times fast slow) (simInit cfg))

/-- The simulator entry point: returns `(trades, round(equity, 2), equity_curve)`. -/
def run_sma_cross (klines : List Bar) (fast slow : ℕ) (cfg : Cfg) :
    List Trade × ℚ × List ℚ :=
  let s := simEnd klines fast slow cfg
  (s.trades, pyRound s.equity 2, s.curve)

/-! ## Simulator loop invariant -/

/-- Exact (unrounded) pnl summed over a trade list. -/
def sumPnlX (l : List Trade) : ℚ := (l.map (·.pnlExact)).sum

/-- Entry commission currently withheld inside an open position. -/
def posComm : Option Pos → ℚ
  | Option.none => 0
  | some p => p.comm_entry

def dTrade : Trade :=
  { entry_time := 0, exit_time := 0, entry_price := 0, exit_price := 0
    side := "long", pnl := 0, pnl_pct := 0, equity := 0
    units := 0, pnlExact := 0, entryRaw := 0, entryIdx := 0 }

/-- Properties of a single recorded trade, relative to the bar data and the
list `pre` of trades recorded before it. -/
def TradeOk (cfg : Cfg) (closes opens : List ℚ) (fast slow bound : ℕ)
    (pre : List Trade) (t : Trade) : Prop :=
  t.units = qtyUnits cfg (cfg.initial_capital + sumPnlX pre) t.entryRaw ∧
  t.entryRaw = opens.getD t.entryIdx 0 ∧
  slow + 1 ≤ t.entryIdx ∧
  t.entryIdx < bound ∧
  crossUp closes fast slow (t.entryIdx - 1) = true ∧
  t.pnl = pyRound t.pnlExact 4 ∧
  t.entry_price = pyRound t.entryRaw 6 ∧
  t.equity = pyRound (cfg.initial_capital + sumPnlX (pre ++ [t])) 2

/-- Loop invariant of `run_sma_cross`, holding before processing bar `i`. -/
structure Inv (cfg : Cfg) (closes opens : List ℚ) (times : List ℤ)
    (fast slow i : ℕ) (s : SimSt) : Prop where
  hEq : s.equity = cfg.initial_capital + sumPnlX s.trades - posComm s.pos
  hPos : ∀ p, s.pos = some p →
    p.units = qtyUnits cfg (cfg.initial_capital + sumPnlX s.trades) p.entry ∧
    p.entry = opens.getD p.entryIdx 0 ∧
    p.entry_time = times.getD p.entryIdx 0 ∧
    slow + 1 ≤ p.entryIdx ∧ p.entryIdx < i ∧
    crossUp closes fast slow (p.entryIdx - 1) = true
  hTr : ∀ k, k < s.trades.length →
    TradeOk cfg closes opens fast slow i (s.trades.take k) (s.trades.getD k dTrade)
  hCurve : s.curve = cfg.initial_capital :: s.trades.map (·.equity)
  hPend : s.pending = .entry →
    s.pos = Option.none ∧ slow < i ∧ crossUp closes fast slow (i - 1) = true

/-- Properties of the end state of the simulation. -/
structure EndSt (cfg : Cfg) (closes opens : List ℚ) (fast slow bound : ℕ)
    (s : SimSt) : Prop where
  hEq : s.equity = cfg.initial_capital + sumPnlX s.trades
  hCurve : s.curve = cfg.initial_capital :: s.trades.map (·.equity)
  hTr : ∀ k, k < s.trades.length →
    TradeOk cfg closes opens fast slow bound (s.trades.take k) (s.trades.getD k dTrade)

/-! ## Concrete fixtures -/

def mkBar (t : ℤ) (o c : ℚ) : Bar := ⟨t, o, c, c, c, 0⟩

/-- Four bars triggering one golden cross (fast = 1, slow = 2): signal on bar 2,
fill on bar 3's open 10.889, force-close at bar 3's close 11. -/
def bars1 : List Bar :=
  [mkBar 0 10 10, mkBar 1 10 10, mkBar 2 10 11, mkBar 3 (10889/1000) 11]

/-- Seven bars giving two winning long trades (fast = 1, slow = 2) with equal
entry prices: entry at bar 3 open 10, exit at bar 5 open 11, re-entry at
bar 6 open 10, force-close at bar 6 close 13. -/
def bars2 : List Bar :=
  [mkBar 0 10 10, mkBar 1 10 10, mkBar 2 10 11, mkBar 3 10 12,
   mkBar 4 10 11, mkBar 5 11 12, mkBar 6 10 13]

/-- Six flat bars (no crossover ever fires). -/
def bars3 : List Bar :=
  [mkBar 0 10 10, mkBar 1 10 10, mkBar 2 10 10,
   mkBar 3 10 10, mkBar 4 10 10, mkBar 5 10 10]

/-- Execution context: zero commission, fixed 1-unit sizing. -/
def cfgU : Cfg :=
  { initial_capital := 10000, commission_value := 0, commission_type := "percent"
    qty_type := "fixed", qty_value := 1 }

/-- Execution context: zero commission, 100% percent-of-equity sizing. -/
def cfgPct : Cfg :=
  { initial_capital := 10000, commission_value := 0, commission_type := "percent"
    qty_type := "percent_of_equity", qty_value := 100 }

/-! ## Metrics calculators

`calc_basic_metrics` (backend/routers/backtest.py lines 170-200) and
`calc_metrics` (backend/routers/optimize.py lines 768-871).

Python `ZeroDivisionError` (float division by zero) and `ValueError`
(`np.max` of an empty array) are modelled by `Except PyErr`; the checks sit
exactly at the source's division / reduction sites, in evaluation order.
`calc_metrics`'s `sharpe_ratio` is an irrational number
(`mean/std * sqrt(252)`); it is represented symbolically by `SharpeRep`:
`SharpeRep.val m v` denotes the value `m / sqrt v * sqrt 252` (so it is zero
iff `m = 0`), and `SharpeRep.zero` the literal `0.0` assignment. The source's
final `round(sharpe, 4)` is not representable on the symbolic form and is
omitted; it does not affect which branch was taken. -/

inductive PyErr where
  | zeroDiv
  | valueErr
  deriving DecidableEq

instance {e a : Type} [DecidableEq e] [DecidableEq a] : DecidableEq (Except e a) :=
  fun x y =>
    match x, y with
    | .ok v, .ok w => decidable_of_iff (v = w) (by simp)
    | .error v, .error w => decidable_of_iff (v = w) (by simp)
    | .ok _, .error _ => isFalse (by simp)
    | .error _, .ok _ => isFalse (by simp)

structure BasicMetrics where
  total_trades : ℕ
  win_rate : ℚ
  profit_pct : ℚ
  profit_factor : ℚ
  max_drawdown : ℚ
  sharpe_ratio : ℚ
  final_equity : ℚ
  gross_profit : ℚ
  gross_loss : ℚ
  deriving DecidableEq

/-- Helper for `np.maximum.accumulate`, carrying the running maximum `m`. -/
def accMax (m : ℚ) : List ℚ → List ℚ
  | [] => []
  | x :: xs => (max m x) :: accMax (max m x) xs

/-- Running peak of an equity curve (`np.maximum.accumulate(eq_arr)`). -/
def peaks : List ℚ → List ℚ
  | [] => []
  | x :: xs => accMax x (x :: xs)

/-- Drawdown series `(peak - eq) / np.where(peak == 0, 1, peak) * 100`. -/
def ddList (ec : List ℚ) : List ℚ :=
  List.zipWith (fun p e => (p - e) / (if p = 0 then 1 else p) * 100) (peaks ec) ec

/-- Maximum of a non-empty array (`np.max`; callers guard emptiness). -/
def listMax : List ℚ → ℚ
  | [] => 0
  | x :: xs => xs.foldl max x

def calc_basic_metrics (trades : List Trade) (equity_curve : List ℚ)
    (initial_capital : ℚ) : Except PyErr BasicMetrics :=
  if trades = [] then
    .ok { total_trades := 0, win_rate := 0, profit_pct := 0, profit_factor := 0,
          max_drawdown := 0, sharpe_ratio := 0, final_equity := initial_capital,
          gross_profit := 0, gross_loss := 0 }
  else
    let pnls := trades.map (·.pnl)
    let wins := pnls.filter (fun p => decide (0 < p))
    let losses := pnls.filter (fun p => decide (p ≤ 0))
    let win_rate := (wins.length : ℚ) / pnls.length * 100
    let gross_profit := if wins ≠ [] then wins.sum else 0
    let gross_loss := if losses ≠ [] then |losses.sum| else 1/10^9
    if gross_loss = 0 then .error .zeroDiv
    else
      let profit_factor := gross_profit / gross_loss
      if equity_curve = [] then .error .valueErr
      else
        let max_drawdown := listMax (ddList equity_curve)
        let final_equity := equity_curve.getLast?.getD 0
        if initial_capital = 0 then .error .zeroDiv
        else
          let profit_pct := (final_equity - initial_capital) / initial_capital * 100
          .ok { total_trades := trades.length
                win_rate := pyRound win_rate 2
                profit_pct := pyRound profit_pct 2
                profit_factor := pyRound profit_factor 4
                max_drawdown := pyRound max_drawdown 2
                sharpe_ratio := 0
                final_equity := pyRound final_equity 2
                gross_profit := pyRound gross_profit 2
                gross_loss := pyRound gross_loss 2 }

/-- A trade as consumed by `calc_metrics`: only `exit_time` (a string, sliced
as `[:10]` / `[:7]`) and `pnl` are read. -/
structure OTrade where
  exit_time : String
  pnl : ℚ
  deriving DecidableEq

/-- The `result` dict handed to `calc_metrics` by `run_fn`. -/
structure StratResult where
  trades : List OTrade
  equity_curve : List ℚ
  deriving DecidableEq

/-- Symbolic Sharpe value: `val m v` denotes `m / sqrt v * sqrt 252`
(`v` the population variance of the daily returns), `zero` the literal 0. -/
inductive SharpeRep where
  | zero
  | val (mean variance : ℚ)
  deriving DecidableEq

structure MetricsRec where
  total_trades : ℕ
  win_rate : ℚ
  profit_pct : ℚ
  profit_factor : ℚ
  max_drawdown : ℚ
  sharpe_ratio : SharpeRep
  final_equity : ℚ
  gross_profit : ℚ
  gross_loss : ℚ
  monthly_pnl : List (String × ℚ)
  trades : List OTrade
  equity_curve : List ℚ
  deriving DecidableEq

/-- Python `dict` assignment `d[k] = v` on an insertion-ordered map. -/
def dictInsert (l : List (String × ℚ)) (k : String) (v : ℚ) : List (String × ℚ) :=
  if l.any (fun p => p.1 = k) then
    l.map (fun p => if p.1 = k then (k, v) else p)
  else l ++ [(k, v)]

/-- Python `d.get(k, 0)`. -/
def dictGet (l : List (String × ℚ)) (k : String) : ℚ :=
  ((l.find? (fun p => p.1 = k)).map (·.2)).getD 0

/-- Python string `<=` (code-point lexicographic). -/
def charListLe : List Char → List Char → Bool
  | [], _ => true
  | _ :: _, [] => false
  | a :: as, b :: bs =>
      if a.val < b.val then true
      else if b.val < a.val then false
      else charListLe as bs

def pyStrLe (a b : String) : Bool := charListLe a.data b.data

/-- Stable insertion of `x` after every element `y` with `le y x`. -/
def insLe {α : Type} (le : α → α → Bool) (x : α) : List α → List α
  | [] => [x]
  | y :: ys => if le y x then y :: insLe le x ys else x :: y :: ys

/-- Python's stable `sort` / `sorted` with a boolean `≤` test. -/
def pySort {α : Type} (le : α → α → Bool) (l : List α) : List α :=
  l.foldl (fun acc x => insLe le x acc) []

/-- The `daily_eq` dict built from the trades (optimize.py lines 824-830): keyed by
`exit_time[:10]`, value = running equity after that trade, last trade of a
day wins. -/
def dailyEq (cap : ℚ) (trades : List OTrade) : List (String × ℚ) :=
  (trades.foldl
    (fun (st : List (String × ℚ) × ℚ) t =>
      let running := st.2 + t.pnl
      let date := t.exit_time.take 10
      (if date ≠ "" then dictInsert st.1 date running else st.1, running))
    ([], cap)).1

/-- Monthly pnl accumulation (optimize.py lines 849-856). -/
def monthlyBuild (trades : List OTrade) : List (String × ℚ) :=
  trades.foldl
    (fun m t =>
      let month := t.exit_time.take 7
      if month ≠ "" then dictInsert m month (pyRound (dictGet m month + t.pnl) 4)
      else m)
    []

/-- Trade-based equity curve (optimize.py lines 791-795): `initial_capital`
then `round(running, 2)` after each trade. -/
def tradeEquity (cap : ℚ) (trades : List OTrade) : List ℚ :=
  cap :: (trades.foldl
    (fun (st : List ℚ × ℚ) t =>
      let r := st.2 + t.pnl
      (st.1 ++ [pyRound r 2], r))
    ([], cap)).1

def npMean (l : List ℚ) : ℚ := l.sum / l.length

/-- Population variance (`np.std` squared). `std > 0` iff `npVar > 0`. -/
def npVar (l : List ℚ) : ℚ := npMean (l.map (fun x => (x - npMean l) ^ 2))

/-- Daily returns `np.diff(arr) / np.where(arr[:-1] == 0, 1, arr[:-1])`. -/
def npDiffRets (arr : List ℚ) : List ℚ :=
  List.zipWith (fun prev next => (next - prev) / (if prev = 0 then 1 else prev))
    arr (arr.drop 1)

/-- The Sharpe block of `calc_metrics` (optimize.py lines 818-844), with the
value kept symbolic (`SharpeRep`). `eq_arr` is the trade-based curve, used
when `daily_eq` is empty. -/
def sharpeCalc (result : StratResult) (cap : ℚ) (eq_arr : List ℚ) : SharpeRep :=
  if 2 < result.equity_curve.length then
    let de := dailyEq cap result.trades
    if 2 < de.length then
      let sorted_vals := (pySort (fun a b => pyStrLe a.1 b.1) de).map (·.2)
      let rets := npDiffRets (cap :: sorted_vals)
      if 0 < npVar rets then .val (npMean rets) (npVar rets) else .zero
    else
      let dArr := if de ≠ [] then cap :: de.map (·.2) else eq_arr
      let rets := npDiffRets dArr
      if 0 < rets.length ∧ 0 < npVar rets then .val (npMean rets) (npVar rets)
      else .zero
  else .zero

def calc_metrics (result : StratResult) (initial_capital : ℚ) :
    Except PyErr MetricsRec :=
  if result.trades = [] then
    .ok { total_trades := 0, win_rate := 0, profit_pct := 0, profit_factor := 0,
          max_drawdown := 0, sharpe_ratio := .zero,
          final_equity := initial_capital, gross_profit := 0, gross_loss := 0,
          monthly_pnl := [], trades := [], equity_curve := [] }
  else
    let trades := result.trades
    let pnls := trades.map (·.pnl)
    let wins := pnls.filter (fun p => decide (0 < p))
    let losses := pnls.filter (fun p => decide (p ≤ 0))
    let win_rate := (wins.length : ℚ) / pnls.length * 100
    let gross_profit := if wins ≠ [] then wins.sum else 0
    let gross_loss := if losses ≠ [] then |losses.sum| else 1/10^9
    let profit_factor := if 0 < gross_loss then gross_profit / gross_loss else 0
    let trade_equity := tradeEquity initial_capital trades
    let max_drawdown := listMax (ddList trade_equity)
    let final_equity := trade_equity.getLast?.getD 0
    if initial_capital = 0 then .error .zeroDiv
    else
      let profit_pct := (final_equity - initial_capital) / initial_capital * 100
      let sharpe := sharpeCalc result initial_capital trade_equity
      .ok { total_trades := trades.length
            win_rate := pyRound win_rate 2
            profit_pct := pyRound profit_pct 2
            profit_factor := pyRound profit_factor 4
            max_drawdown := pyRound max_drawdown 2
            sharpe_ratio := sharpe
            final_equity := pyRound final_equity 2
            gross_profit := pyRound gross_profit 2
            gross_loss := pyRound gross_loss 2
            monthly_pnl := monthlyBuild trades
            trades := trades
            equity_curve := trade_equity }

/-- The trade-level curve as the specification words it: initial capital
followed by `round(initial + pnl_1 + ... + pnl_(k+1), 2)` for each prefix. -/
def cumCurveSpec (cap : ℚ) (pnls : List ℚ) : List ℚ :=
  cap :: (List.range pnls.length).map (fun k => pyRound (cap + (pnls.take (k + 1)).sum) 2)

/-! ## Search driver / trial evaluator
(`run_optuna_optimization.objective`, optimize.py lines 1021-1127, and the
final ranking, lines 1165-1171).

The opaque per-trial computation — `run_fn` on the suggested parameters
followed by `calc_metrics` and `metrics.get(sort_by, 0.0)` — is abstracted as
an oracle: `TrialIn.primary` is the score that evaluation produces (or the
kind of exception it raises), and `TrialIn.fallback` the same for the rerun
with the substituted fallback strategy. What the `objective` *does* with the
outcome (summary store, elite buffer, sentinel returns, completion counter,
ranking) is translated from the source. A `results_store` summary entry /
elite full entry is represented by the trial number it came from. -/

inductive RunErr where
  | numbaTyping
  | other
  deriving DecidableEq

structure TrialIn where
  primary : Except RunErr ℚ
  fallback : Except RunErr ℚ
  deriving DecidableEq

inductive Score where
  | fin (q : ℚ)
  | posInf
  | negInf
  deriving DecidableEq

structure OptSt where
  results : List ℕ
  elite : List (ℚ × ℕ)
  completed : ℕ
  best : Option ℚ
  deriving DecidableEq

/-- The set of minimize-direction metrics (optimize.py line 1015). -/
def minimizeMetrics : List String := ["max_drawdown"]

def isMinimize (sortBy : String) : Bool := minimizeMetrics.contains sortBy

/-- Comparison predicate `_is_better(a, b)` (optimize.py lines 1018-1019). -/
def isBetter (sortBy : String) (a b : ℚ) : Bool :=
  if isMinimize sortBy then decide (a < b) else decide (b < a)

/-- The sentinel score returned for a failed trial (lines 1081, 1085). -/
def sentinel (sortBy : String) : Score :=
  if isMinimize sortBy then .posInf else .negInf

/-- Lines 1044-1085: the primary evaluation; on a numba `TypingError` within
the first two trials, one retry with the fallback strategy; `none` means the
trial is sentinel-scored. -/
def evalTrial (t : TrialIn) (number : ℕ) : Option ℚ :=
  match t.primary with
  | .ok v => some v
  | .error e =>
      if e = .numbaTyping ∧ number ≤ 1 then
        match t.fallback with
        | .ok v => some v
        | .error _ => Option.none
      else Option.none

/-- Elite-buffer insertion (lines 1107-1113): append, stable sort by score
(descending iff maximizing), drop the worst when over capacity. -/
def eliteInsert (sortBy : String) (topN : ℕ) (elite : List (ℚ × ℕ))
    (entry : ℚ × ℕ) : List (ℚ × ℕ) :=
  let le : (ℚ × ℕ) → (ℚ × ℕ) → Bool :=
    if isMinimize sortBy then fun a b => decide (a.1 ≤ b.1)
    else fun a b => decide (b.1 ≤ a.1)
  let sorted := pySort le (elite ++ [entry])
  if topN < sorted.length then sorted.dropLast else sorted

/-- One `objective(trial)` call, returning the updated shared state and the
score reported to the sampler. -/
def objective (sortBy : String) (topN : ℕ) (st : OptSt) (number : ℕ)
    (t : TrialIn) : OptSt × Score :=
  match evalTrial t number with
  | Option.none => (st, sentinel sortBy)
  | some v =>
      ({ results := st.results ++ [number]
         elite := eliteInsert sortBy topN st.elite (v, number)
         completed := st.completed + 1
         best :=
           match st.best with
           | Option.none => some v
           | some b => if isBetter sortBy v b then some v else some b },
       .fin v)

def optInit : OptSt := ⟨[], [], 0, Option.none⟩

/-- The driver runs exactly `n_trials` objective calls (batched `while` loop,
lines 1142-1146); trial numbers are assigned sequentially. -/
def runTrials (sortBy : String) (topN : ℕ) : ℕ → OptSt → List TrialIn → OptSt
  | _, st, [] => st
  | n, st, t :: ts => runTrials sortBy topN (n + 1) (objective sortBy topN st n t).1 ts

/-- Ranking via `enumerate(top_results)` with `rank = i + 1` (lines 1165-1171). -/
def addRanks {α : Type} : ℕ → List α → List (ℕ × α)
  | _, [] => []
  | i, x :: xs => (i, x) :: addRanks (i + 1) xs

def topResults (topN : ℕ) (st : OptSt) : List (ℕ × ℚ × ℕ) :=
  addRanks 1 (st.elite.take topN)

/-- Number of trials whose evaluation succeeds (possibly via fallback). -/
def countOk : ℕ → List TrialIn → ℕ
  | _, [] => 0
  | n, t :: ts => (if (evalTrial t n).isSome then 1 else 0) + countOk (n + 1) ts

/-! ## Theorems -/

theorem roundHalfEven_intCast (k : ℤ) : roundHalfEven (k : ℚ) = k := by
  simp [roundHalfEven, Int.fract_intCast]

theorem abs_roundHalfEven_sub_le (q : ℚ) : |(roundHalfEven q : ℚ) - q| ≤ 1/2 := by
  have hfl := Int.fract_nonneg q
  have hfu := Int.fract_lt_one q
  have hfr : (⌊q⌋ : ℚ) = q - Int.fract q := by
    have := Int.self_sub_fract q; linarith
  unfold roundHalfEven
  by_cases h1 : Int.fract q < 1/2
  · simp only [h1, if_true]
    rw [hfr, abs_le]; constructor <;> linarith
  · simp only [h1, if_false]
    by_cases h2 : (1:ℚ)/2 < Int.fract q
    · simp only [h2, if_true]
      have hf0 : Int.fract q ≠ 0 := by
        intro h; rw [h] at h2; norm_num at h2
      have hc : (⌈q⌉ : ℚ) = q + 1 - Int.fract q := Int.ceil_eq_add_one_sub_fract hf0
      rw [hc, abs_le]; constructor <;> linarith
    · have hf : Int.fract q = 1/2 := le_antisymm (not_lt.mp h2) (not_lt.mp h1)
      simp only [h2, if_false]
      by_cases h3 : 2 ∣ ⌊q⌋
      · simp only [h3, if_true]
        rw [hfr, hf, abs_le]; constructor <;> linarith
      · simp only [h3, if_false]
        have hcast : ((⌊q⌋ + 1 : ℤ) : ℚ) = (⌊q⌋ : ℚ) + 1 := by push_cast; ring
        rw [hcast, hfr, hf, abs_le]; constructor <;> linarith

theorem roundHalfEven_pos (q : ℚ) (h : 0 < roundHalfEven q) : 0 < q := by
  by_contra hq
  push_neg at hq
  have hb := abs_roundHalfEven_sub_le q
  rw [abs_le] at hb
  have h1 : (1:ℚ) ≤ (roundHalfEven q : ℚ) := by exact_mod_cast h
  nlinarith [hb.2]

theorem pyRound_pos (q : ℚ) (n : ℕ) (h : 0 < pyRound q n) : 0 < q := by
  unfold pyRound at h
  have hp : (0:ℚ) < 10 ^ n := by positivity
  have hr : 0 < (roundHalfEven (q * 10 ^ n) : ℚ) := by
    by_contra hc
    push_neg at hc
    have : (roundHalfEven (q * 10 ^ n) : ℚ) / 10 ^ n ≤ 0 := div_nonpos_of_nonpos_of_nonneg hc (le_of_lt hp)
    linarith
  have hz : 0 < roundHalfEven (q * 10 ^ n) := by exact_mod_cast hr
  have := roundHalfEven_pos _ hz
  nlinarith

theorem abs_pyRound_sub_le (q : ℚ) (n : ℕ) : |pyRound q n - q| ≤ 1 / (2 * 10 ^ n) := by
  unfold pyRound
  have hp : (0:ℚ) < 10 ^ n := by positivity
  have hb := abs_roundHalfEven_sub_le (q * 10 ^ n)
  have heq : (roundHalfEven (q * 10 ^ n) : ℚ) / 10 ^ n - q
      = ((roundHalfEven (q * 10 ^ n) : ℚ) - q * 10 ^ n) / 10 ^ n := by
    field_simp
    ring
  rw [heq, abs_div, abs_of_pos hp, div_le_div_iff hp (by positivity)]
  calc |(roundHalfEven (q * 10 ^ n) : ℚ) - q * 10 ^ n| * (2 * 10 ^ n)
      ≤ (1/2) * (2 * 10 ^ n) := by
        apply mul_le_mul_of_nonneg_right hb; positivity
    _ = 1 * 10 ^ n := by ring

theorem pyRound_idem (q : ℚ) (n : ℕ) : pyRound (pyRound q n) n = pyRound q n := by
  unfold pyRound
  have hp : ((10:ℚ) ^ n) ≠ 0 := by positivity
  rw [div_mul_cancel₀ _ hp, roundHalfEven_intCast]

theorem sumPnlX_append (l : List Trade) (t : Trade) :
    sumPnlX (l ++ [t]) = sumPnlX l + t.pnlExact := by
  simp [sumPnlX]

theorem getD_append_length {α : Type} (l : List α) (x d : α) :
    (l ++ [x]).getD l.length d = x := by
  induction l with
  | nil => rfl
  | cons a as ih => simpa using ih

theorem TradeOk.mono {cfg closes opens fast slow b b' pre t}
    (h : TradeOk cfg closes opens fast slow b pre t) (hb : b ≤ b') :
    TradeOk cfg closes opens fast slow b' pre t := by
  obtain ⟨h1, h2, h3, h4, h5, h6, h7, h8⟩ := h
  exact ⟨h1, h2, h3, lt_of_lt_of_le h4 hb, h5, h6, h7, h8⟩

theorem simStep1_inv (cfg : Cfg) (closes opens : List ℚ) (times : List ℤ)
    (fast slow i : ℕ) (s : SimSt)
    (hInv : Inv cfg closes opens times fast slow i s) :
    Inv cfg closes opens times fast slow (i + 1) (simStep1 cfg opens times s i) ∧
    (simStep1 cfg opens times s i).pending = .none := by
  obtain ⟨hEq, hPos, hTr, hCurve, hPend⟩ := hInv
  obtain ⟨tr, pos, eq, cur, pend⟩ := s
  cases pend with
  | none =>
      refine ⟨⟨hEq, ?_, ?_, hCurve, ?_⟩, rfl⟩
      · intro p hp
        obtain ⟨a1, a2, a3, a4, a5, a6⟩ := hPos p hp
        exact ⟨a1, a2, a3, a4, Nat.lt_succ_of_lt a5, a6⟩
      · intro k hk
        exact (hTr k hk).mono (Nat.le_succ i)
      · intro h; cases h
  | entry =>
      cases pos with
      | none =>
          obtain ⟨-, hsl, hcu⟩ := hPend rfl
          simp only [posComm, sub_zero] at hEq
          refine ⟨⟨?_, ?_, ?_, ?_, ?_⟩, rfl⟩
          · simp only [simStep1, posComm]
            rw [hEq]
          · intro p hp
            simp only [simStep1, Option.some.injEq] at hp
            subst hp
            refine ⟨?_, rfl, rfl, hsl, Nat.lt_succ_self i, hcu⟩
            show qtyUnits cfg eq _ = _
            rw [hEq]
            rfl
          · intro k hk
            exact (hTr k hk).mono (Nat.le_succ i)
          · exact hCurve
          · intro h; simp only [simStep1] at h; cases h
      | some p =>
          refine ⟨⟨hEq, ?_, ?_, hCurve, ?_⟩, rfl⟩
          · intro q hq
            obtain ⟨a1, a2, a3, a4, a5, a6⟩ := hPos q hq
            exact ⟨a1, a2, a3, a4, Nat.lt_succ_of_lt a5, a6⟩
          · intro k hk
            exact (hTr k hk).mono (Nat.le_succ i)
          · intro h; cases h
  | exit =>
      cases pos with
      | none =>
          refine ⟨⟨hEq, ?_, ?_, hCurve, ?_⟩, rfl⟩
          · intro p hp; cases hp
          · intro k hk
            exact (hTr k hk).mono (Nat.le_succ i)
          · intro h; cases h
      | some p =>
          obtain ⟨b1, b2, b3, b4, b5, b6⟩ := hPos p rfl
          simp only [posComm] at hEq
          refine ⟨⟨?_, ?_, ?_, ?_, ?_⟩, rfl⟩
          · simp only [simStep1, posComm, sumPnlX_append]
            rw [hEq]; ring
          · intro q hq; simp only [simStep1] at hq; cases hq
          · intro k hk
            simp only [simStep1] at hk ⊢
            rw [List.length_append, List.length_cons, List.length_nil] at hk
            rcases Nat.lt_succ_iff_lt_or_eq.mp hk with hlt | heq
            · rw [List.getD_append _ _ _ _ hlt,
                List.take_append_of_le_length (Nat.le_of_lt hlt)]
              exact (hTr k hlt).mono (Nat.le_succ i)
            · subst heq
              rw [getD_append_length, List.take_append_of_le_length (le_refl _),
                List.take_length]
              refine ⟨?_, b2, b4, Nat.lt_succ_of_lt b5, b6, rfl, rfl, ?_⟩
              · show p.units = _
                rw [b1]
              · show pyRound _ 2 = pyRound _ 2
                rw [sumPnlX_append]
                congr 1
                rw [hEq]
                ring
          · simp only [simStep1]
            dsimp only at hCurve
            rw [hCurve]
            simp
          · intro h; simp only [simStep1] at h; cases h

theorem simSig_inv (cfg : Cfg) (closes opens : List ℚ) (times : List ℤ)
    (fast slow i : ℕ) (s1 : SimSt) (hsl : slow ≤ i)
    (hInv : Inv cfg closes opens times fast slow (i + 1) s1)
    (hp : s1.pending = .none) :
    Inv cfg closes opens times fast slow (i + 1) (simSig closes fast slow s1 i) := by
  obtain ⟨hEq, hPos, hTr, hCurve, hPend⟩ := hInv
  unfold simSig
  by_cases h1 : crossUp closes fast slow i && s1.pos.isNone
  · rw [if_pos h1]
    have h1' := h1
    simp only [Bool.and_eq_true] at h1'
    obtain ⟨hA, hB⟩ := h1'
    refine ⟨hEq, hPos, hTr, hCurve, ?_⟩
    intro h3
    refine ⟨Option.isNone_iff_eq_none.mp hB, Nat.lt_succ_of_le hsl, ?_⟩
    simpa using hA
  · rw [if_neg h1]
    by_cases h2 : crossDown closes fast slow i && s1.pos.isSome
    · rw [if_pos h2]
      refine ⟨hEq, hPos, hTr, hCurve, ?_⟩
      intro h; cases h
    · rw [if_neg h2]
      exact ⟨hEq, hPos, hTr, hCurve, hPend⟩

theorem simStep_inv (cfg : Cfg) (closes opens : List ℚ) (times : List ℤ)
    (fast slow i : ℕ) (s : SimSt) (hsl : slow ≤ i)
    (hInv : Inv cfg closes opens times fast slow i s) :
    Inv cfg closes opens times fast slow (i + 1)
      (simStep cfg closes opens times fast slow s i) := by
  obtain ⟨h1, h2⟩ := simStep1_inv cfg closes opens times fast slow i s hInv
  exact simSig_inv cfg closes opens times fast slow i _ hsl h1 h2

theorem range'_foldl_inv {σ : Type} (f : σ → ℕ → σ) (P : ℕ → σ → Prop)
    (hstep : ∀ i t, P i t → P (i + 1) (f t i)) :
    ∀ (cnt a : ℕ) (s : σ), P a s → P (a + cnt) ((List.range' a cnt).foldl f s) := by
  intro cnt
  induction cnt with
  | zero => intro a s h; simpa using h
  | succ m ih =>
      intro a s h
      rw [List.range'_succ]
      have h2 := ih (a + 1) (f s a) (hstep a s h)
      have harith : a + 1 + m = a + (m + 1) := by omega
      rw [harith] at h2
      simpa using h2

theorem simInit_inv (cfg : Cfg) (closes opens : List ℚ) (times : List ℤ)
    (fast slow : ℕ) :
    Inv cfg closes opens times fast slow slow (simInit cfg) := by
  refine ⟨?_, ?_, ?_, rfl, ?_⟩
  · simp [simInit, sumPnlX, posComm]
  · intro p hp; cases hp
  · intro k hk; simp [simInit] at hk
  · intro h; cases h

theorem simClose_end (cfg : Cfg) (closes opens : List ℚ) (times : List ℤ)
    (fast slow j : ℕ) (s : SimSt)
    (hInv : Inv cfg closes opens times fast slow j s) :
    EndSt cfg closes opens fast slow j (simClose cfg closes times s) := by
  obtain ⟨hEq, hPos, hTr, hCurve, hPend⟩ := hInv
  obtain ⟨tr, pos, eq, cur, pend⟩ := s
  cases pos with
  | none =>
      simp only [posComm, sub_zero] at hEq
      exact ⟨hEq, hCurve, fun k hk => hTr k hk⟩
  | some p =>
      obtain ⟨b1, b2, b3, b4, b5, b6⟩ := hPos p rfl
      simp only [posComm] at hEq
      refine ⟨?_, ?_, ?_⟩
      · simp only [simClose, sumPnlX_append]
        rw [hEq]; ring
      · simp only [simClose]
        dsimp only at hCurve
        rw [hCurve]
        simp
      · intro k hk
        simp only [simClose] at hk ⊢
        rw [List.length_append, List.length_cons, List.length_nil] at hk
        rcases Nat.lt_succ_iff_lt_or_eq.mp hk with hlt | heq
        · rw [List.getD_append _ _ _ _ hlt,
            List.take_append_of_le_length (Nat.le_of_lt hlt)]
          exact hTr k hlt
        · subst heq
          rw [getD_append_length, List.take_append_of_le_length (le_refl _),
            List.take_length]
          refine ⟨?_, b2, b4, b5, b6, rfl, rfl, ?_⟩
          · show p.units = _
            rw [b1]
          · show pyRound _ 2 = pyRound _ 2
            rw [sumPnlX_append]
            congr 1
            rw [hEq]
            ring

/-- The end state of `run_sma_cross` satisfies the accounting, curve and
per-trade invariants, with every recorded entry fill strictly inside the
bar range. -/
theorem sim_fold_inv (cfg : Cfg) (closes opens : List ℚ) (times : List ℤ)
    (fast slow n : ℕ) (h : slow ≤ n) :
    Inv cfg closes opens times fast slow n
      ((List.range' slow (n - slow)).foldl
        (simStep cfg closes opens times fast slow) (simInit cfg)) := by
  have hP := range'_foldl_inv (simStep cfg closes opens times fast slow)
      (fun i s => slow ≤ i ∧ Inv cfg closes opens times fast slow i s)
      (fun i t ht => ⟨Nat.le_succ_of_le ht.1,
        simStep_inv cfg closes opens times fast slow i t ht.1 ht.2⟩)
      (n - slow) slow (simInit cfg)
      ⟨le_refl slow, simInit_inv cfg closes opens times fast slow⟩
  rw [Nat.add_sub_cancel' h] at hP
  exact hP.2

theorem simEnd_spec (klines : List Bar) (fast slow : ℕ) (cfg : Cfg) :
    EndSt cfg (klines.map (·.close)) (klines.map (·.open_)) fast slow
      klines.length (simEnd klines fast slow cfg) := by
  unfold simEnd
  by_cases h : slow ≤ klines.length
  · have hlen : (klines.map (·.close)).length = klines.length := klines.length_map _
    exact simClose_end cfg _ _ _ fast slow klines.length _
      (sim_fold_inv cfg _ _ _ fast slow klines.length h)
  · have h0 : klines.length - slow = 0 := Nat.sub_eq_zero_of_le (Nat.le_of_not_le h)
    rw [h0]
    simp only [List.range', List.foldl, simClose, simInit]
    refine ⟨?_, rfl, ?_⟩
    · simp [sumPnlX]
    · intro k hk; simp at hk

/-! ## Locality of signal detection -/

theorem pySlice_congr (l l' : List ℚ) (a b : ℤ) (m : ℕ)
    (ha : 0 ≤ a) (hb : 0 ≤ b) (hab : a.toNat ≤ b.toNat)
    (hbl : b.toNat ≤ l.length) (hbl' : b.toNat ≤ l'.length)
    (hbm : b.toNat ≤ m) (ht : l.take m = l'.take m) :
    pySlice l a b = pySlice l' a b := by
  unfold pySlice pySliceIdx
  rw [if_neg (not_lt.mpr ha), if_neg (not_lt.mpr hb),
    if_neg (not_lt.mpr ha), if_neg (not_lt.mpr hb),
    min_eq_left hbl, min_eq_left hbl',
    min_eq_left (le_trans hab hbl), min_eq_left (le_trans hab hbl')]
  have hkey : l.take b.toNat = l'.take b.toNat := by
    calc l.take b.toNat = (l.take m).take b.toNat := by
          rw [List.take_take, min_eq_left hbm]
      _ = (l'.take m).take b.toNat := by rw [ht]
      _ = l'.take b.toNat := by rw [List.take_take, min_eq_left hbm]
  rw [hkey]

theorem maAt_congr (l l' : List ℚ) (p i : ℕ) (hp : p ≤ i)
    (h1 : i + 1 ≤ l.length) (h2 : i + 1 ≤ l'.length)
    (ht : l.take (i + 1) = l'.take (i + 1)) :
    maAt l p i = maAt l' p i := by
  unfold maAt
  rw [pySlice_congr l l' ((i : ℤ) - p + 1) ((i : ℤ) + 1) (i + 1)
    (by omega) (by omega) (by omega) (by omega) (by omega) (by omega) ht]

theorem maPrevAt_congr (l l' : List ℚ) (p i : ℕ) (hp : p ≤ i)
    (h1 : i + 1 ≤ l.length) (h2 : i + 1 ≤ l'.length)
    (ht : l.take (i + 1) = l'.take (i + 1)) :
    maPrevAt l p i = maPrevAt l' p i := by
  unfold maPrevAt
  have ht' : l.take i = l'.take i := by
    have := congrArg (List.take i) ht
    rwa [List.take_take, List.take_take, min_eq_left (Nat.le_succ i)] at this
  rw [pySlice_congr l l' ((i : ℤ) - p) (i : ℤ) i
    (by omega) (by omega) (by omega) (by omega) (by omega) (by omega) ht']

/-- Signal detection at bar `i` uses only the closes of bars `0..i`. -/
theorem cross_congr (cs cs' : List ℚ) (fast slow i : ℕ)
    (hf : fast ≤ slow) (hs : slow ≤ i)
    (h1 : i + 1 ≤ cs.length) (h2 : i + 1 ≤ cs'.length)
    (ht : cs.take (i + 1) = cs'.take (i + 1)) :
    crossUp cs fast slow i = crossUp cs' fast slow i ∧
    crossDown cs fast slow i = crossDown cs' fast slow i := by
  unfold crossUp crossDown
  rw [maAt_congr cs cs' fast i (le_trans hf hs) h1 h2 ht,
    maAt_congr cs cs' slow i hs h1 h2 ht,
    maPrevAt_congr cs cs' fast i (le_trans hf hs) h1 h2 ht,
    maPrevAt_congr cs cs' slow i hs h1 h2 ht]
  exact ⟨rfl, rfl⟩

/-! ## Accounting bounds -/

theorem sum_pnl_rounding_bound (l : List Trade)
    (h : ∀ t ∈ l, t.pnl = pyRound t.pnlExact 4) :
    |(l.map (·.pnl)).sum - sumPnlX l| ≤ l.length * (1/20000) := by
  induction l with
  | nil => simp [sumPnlX]
  | cons t ts ih =>
      have ht := h t (List.mem_cons_self t ts)
      have hts := ih (fun u hu => h u (List.mem_cons_of_mem t hu))
      have hb : |t.pnl - t.pnlExact| ≤ 1/20000 := by
        rw [ht]
        have := abs_pyRound_sub_le t.pnlExact 4
        norm_num at this ⊢
        linarith
      have hsplit : (List.map (·.pnl) (t :: ts)).sum - sumPnlX (t :: ts)
          = (t.pnl - t.pnlExact) + ((ts.map (·.pnl)).sum - sumPnlX ts) := by
        simp [sumPnlX]
        ring
      rw [hsplit]
      calc |(t.pnl - t.pnlExact) + ((ts.map (·.pnl)).sum - sumPnlX ts)|
          ≤ |t.pnl - t.pnlExact| + |(ts.map (·.pnl)).sum - sumPnlX ts| := abs_add _ _
        _ ≤ 1/20000 + ts.length * (1/20000) := add_le_add hb hts
        _ = (t :: ts).length * (1/20000) := by
            simp
            ring

theorem endSt_pnl_mem (klines : List Bar) (fast slow : ℕ) (cfg : Cfg) :
    ∀ t ∈ (simEnd klines fast slow cfg).trades, t.pnl = pyRound t.pnlExact 4 := by
  intro t hmem
  obtain ⟨k, hk, hget⟩ := List.mem_iff_getElem.mp hmem
  have h := (simEnd_spec klines fast slow cfg).hTr k hk
  obtain ⟨-, -, -, -, -, hpnl, -, -⟩ := h
  rw [List.getD_eq_getElem _ _ hk, hget] at hpnl
  exact hpnl

theorem sumPnlX_take_succ (l : List Trade) (k : ℕ) (hk : k < l.length) :
    sumPnlX (l.take (k + 1)) = sumPnlX (l.take k) + (l.getD k dTrade).pnlExact := by
  have h1 : l.take (k + 1) = l.take k ++ [l.getD k dTrade] := by
    rw [List.take_succ, List.getElem?_eq_getElem hk, List.getD_eq_getElem _ _ hk]
    rfl
  rw [h1, sumPnlX_append]

/-! ## Claim C1: accounting invariant -/

/-- C1 (amended): the exact accounting identity holds — the simulator's
unrounded final equity equals initial capital plus the sum of the trades'
unrounded pnl — and the *reported* values (per-trade pnl rounded to 4
decimals, final equity rounded to 2 decimals) satisfy the invariant only up
to `n_trades * 5e-5 + 5e-3`, not the claimed `1e-6`. -/
theorem c1_accounting_invariant (klines : List Bar) (fast slow : ℕ) (cfg : Cfg)
    (hf : 1 ≤ fast) (hs : 1 ≤ slow)
    (hb : ∀ b ∈ klines, 0 < b.open_ ∧ 0 < b.close) :
    (simEnd klines fast slow cfg).equity
      = cfg.initial_capital + sumPnlX (run_sma_cross klines fast slow cfg).1 ∧
    (run_sma_cross klines fast slow cfg).2.1
      = pyRound (cfg.initial_capital + sumPnlX (run_sma_cross klines fast slow cfg).1) 2 ∧
    |((run_sma_cross klines fast slow cfg).1.map (·.pnl)).sum
        - ((run_sma_cross klines fast slow cfg).2.1 - cfg.initial_capital)|
      ≤ (run_sma_cross klines fast slow cfg).1.length * (1/20000) + 1/200 := by
  have hrw1 : (run_sma_cross klines fast slow cfg).1
      = (simEnd klines fast slow cfg).trades := rfl
  have hrw2 : (run_sma_cross klines fast slow cfg).2.1
      = pyRound (simEnd klines fast slow cfg).equity 2 := rfl
  have hE := (simEnd_spec klines fast slow cfg).hEq
  rw [hrw1, hrw2, hE]
  refine ⟨rfl, rfl, ?_⟩
  have h1 := sum_pnl_rounding_bound (simEnd klines fast slow cfg).trades
    (endSt_pnl_mem klines fast slow cfg)
  have h2 : |(cfg.initial_capital + sumPnlX (simEnd klines fast slow cfg).trades)
      - pyRound (cfg.initial_capital + sumPnlX (simEnd klines fast slow cfg).trades) 2|
      ≤ 1/200 := by
    rw [abs_sub_comm]
    have := abs_pyRound_sub_le
      (cfg.initial_capital + sumPnlX (simEnd klines fast slow cfg).trades) 2
    norm_num at this ⊢
    linarith
  have hsplit :
      ((simEnd klines fast slow cfg).trades.map (·.pnl)).sum
        - (pyRound (cfg.initial_capital + sumPnlX (simEnd klines fast slow cfg).trades) 2
            - cfg.initial_capital)
      = (((simEnd klines fast slow cfg).trades.map (·.pnl)).sum
            - sumPnlX (simEnd klines fast slow cfg).trades)
        + ((cfg.initial_capital + sumPnlX (simEnd klines fast slow cfg).trades)
            - pyRound (cfg.initial_capital + sumPnlX (simEnd klines fast slow cfg).trades) 2) := by
    ring
  rw [hsplit]
  exact le_trans (abs_add _ _) (add_le_add h1 h2)

/-- C1 counterexample: on `bars1` with fast = 1, slow = 2, zero commission and
fixed 1-unit sizing, the single trade reports pnl 0.111 while
`final_equity - initial_capital = 10000.11 - 10000 = 0.11`, so the claimed
tolerance `1e-6` is exceeded (the discrepancy is 0.001). -/
theorem c1_counterexample :
    (run_sma_cross bars1 1 2 cfgU).1.length = 1 ∧
    ((run_sma_cross bars1 1 2 cfgU).1.map (·.pnl)).sum = 111/1000 ∧
    (run_sma_cross bars1 1 2 cfgU).2.1 = 1000011/100 ∧
    ¬ |((run_sma_cross bars1 1 2 cfgU).1.map (·.pnl)).sum
        - ((run_sma_cross bars1 1 2 cfgU).2.1 - cfgU.initial_capital)|
      < 1/1000000 := by
  decide

/-- C1 witness: the amended accounting theorem instantiated on `bars1`. -/
theorem c1_witness :
    |((run_sma_cross bars1 1 2 cfgU).1.map (·.pnl)).sum
        - ((run_sma_cross bars1 1 2 cfgU).2.1 - cfgU.initial_capital)|
      ≤ (run_sma_cross bars1 1 2 cfgU).1.length * (1/20000) + 1/200 :=
  (c1_accounting_invariant bars1 1 2 cfgU (by decide) (by decide) (by decide)).2.2

/-! ## Claim C2: no look-ahead under the delayed-fill model -/

/-- C2: every trade's entry fills at bar index at least `slow + 1`, at the
fill bar's open price, from a golden-cross signal confirmed at the previous
bar (index at least `slow`); and the crossover conditions at bar `j` depend
only on the closes of bars `0..j`, never on the fill bar `j + 1`. -/
theorem c2_no_lookahead (klines : List Bar) (fast slow : ℕ) (cfg : Cfg)
    (hf : 1 ≤ fast) (hfs : fast ≤ slow)
    (hb : ∀ b ∈ klines, 0 < b.open_ ∧ 0 < b.close) :
    (∀ t ∈ (run_sma_cross klines fast slow cfg).1,
        slow + 1 ≤ t.entryIdx ∧ t.entryIdx < klines.length ∧
        slow ≤ t.entryIdx - 1 ∧
        crossUp (klines.map (·.close)) fast slow (t.entryIdx - 1) = true ∧
        t.entryRaw = (klines.map (·.open_)).getD t.entryIdx 0 ∧
        t.entry_price = pyRound t.entryRaw 6) ∧
    (∀ (cs cs' : List ℚ) (j : ℕ), slow ≤ j → j + 1 ≤ cs.length →
        j + 1 ≤ cs'.length → cs.take (j + 1) = cs'.take (j + 1) →
        crossUp cs fast slow j = crossUp cs' fast slow j ∧
        crossDown cs fast slow j = crossDown cs' fast slow j) := by
  constructor
  · have hrw : (run_sma_cross klines fast slow cfg).1
        = (simEnd klines fast slow cfg).trades := rfl
    rw [hrw]
    intro t hmem
    obtain ⟨k, hk, hget⟩ := List.mem_iff_getElem.mp hmem
    have h := (simEnd_spec klines fast slow cfg).hTr k hk
    rw [List.getD_eq_getElem _ _ hk, hget] at h
    obtain ⟨-, hraw, hidx1, hidx2, hcu, -, hep, -⟩ := h
    exact ⟨hidx1, hidx2, by omega, hcu, hraw, hep⟩
  · intro cs cs' j hj h1 h2 ht
    exact cross_congr cs cs' fast slow j hfs hj h1 h2 ht

/-- C2 witness: the no-look-ahead theorem instantiated on `bars1` with
fast = 1, slow = 2 (the single trade fills at bar index 3 = slow + 1). -/
theorem c2_witness :
    (∀ t ∈ (run_sma_cross bars1 1 2 cfgU).1,
        2 + 1 ≤ t.entryIdx ∧ t.entryIdx < bars1.length ∧
        2 ≤ t.entryIdx - 1 ∧
        crossUp (bars1.map (·.close)) 1 2 (t.entryIdx - 1) = true ∧
        t.entryRaw = (bars1.map (·.open_)).getD t.entryIdx 0 ∧
        t.entry_price = pyRound t.entryRaw 6) ∧
    (∀ (cs cs' : List ℚ) (j : ℕ), 2 ≤ j → j + 1 ≤ cs.length →
        j + 1 ≤ cs'.length → cs.take (j + 1) = cs'.take (j + 1) →
        crossUp cs 1 2 j = crossUp cs' 1 2 j ∧
        crossDown cs 1 2 j = crossDown cs' 1 2 j) :=
  c2_no_lookahead bars1 1 2 cfgU (by decide) (by decide) (by decide)

/-! ## Claim C7: equity-curve emission -/

/-- C7 (amended): the equity curve emitted by `run_sma_cross` is *trade-level*,
not bar-level: it is `initial_capital` followed by one value per completed
trade (the cash equity after that trade's exit, rounded to 2 decimals); no
mark-to-market value is emitted while a position is open. -/
theorem c7_equity_curve (klines : List Bar) (fast slow : ℕ) (cfg : Cfg)
    (hf : 1 ≤ fast) (hs : 1 ≤ slow)
    (hb : ∀ b ∈ klines, 0 < b.open_ ∧ 0 < b.close) :
    (run_sma_cross klines fast slow cfg).2.2
        = cfg.initial_capital :: (run_sma_cross klines fast slow cfg).1.map (·.equity) ∧
    (run_sma_cross klines fast slow cfg).2.2.head? = some cfg.initial_capital ∧
    (run_sma_cross klines fast slow cfg).2.2.length
        = (run_sma_cross klines fast slow cfg).1.length + 1 := by
  have hrw : (run_sma_cross klines fast slow cfg).2.2
      = (simEnd klines fast slow cfg).curve := rfl
  have hrw1 : (run_sma_cross klines fast slow cfg).1
      = (simEnd klines fast slow cfg).trades := rfl
  have hC := (simEnd_spec klines fast slow cfg).hCurve
  rw [hrw, hrw1, hC]
  refine ⟨rfl, rfl, ?_⟩
  simp

/-- C7 counterexample: on 6 flat bars no trade fires and the returned equity
curve is the single point `[initial_capital]` — not one value per bar as the
claim states. -/
theorem c7_counterexample :
    bars3.length = 6 ∧
    (run_sma_cross bars3 2 3 cfgU).2.2 = [10000] ∧
    (run_sma_cross bars3 2 3 cfgU).2.2.length ≠ bars3.length := by
  decide

/-- C7 witness: the amended curve-shape theorem instantiated on `bars1`. -/
theorem c7_witness :
    (run_sma_cross bars1 1 2 cfgU).2.2
        = cfgU.initial_capital :: (run_sma_cross bars1 1 2 cfgU).1.map (·.equity) ∧
    (run_sma_cross bars1 1 2 cfgU).2.2.head? = some cfgU.initial_capital ∧
    (run_sma_cross bars1 1 2 cfgU).2.2.length
        = (run_sma_cross bars1 1 2 cfgU).1.length + 1 :=
  c7_equity_curve bars1 1 2 cfgU (by decide) (by decide) (by decide)

/-! ## Claim C8: dynamic compounding monotonicity -/

/-- C8: with 100% percent-of-equity sizing, if two consecutive recorded trades
entered at the same (raw) price and the first one won, the second trade's unit
count is strictly greater — units are recomputed from current equity. -/
theorem c8_compounding (klines : List Bar) (fast slow : ℕ) (cfg : Cfg) (k : ℕ)
    (hq1 : cfg.qty_type = "percent_of_equity") (hq2 : cfg.qty_value = 100)
    (hop : ∀ b ∈ klines, 0 < b.open_)
    (hk : k + 1 < (run_sma_cross klines fast slow cfg).1.length)
    (hpr : ((run_sma_cross klines fast slow cfg).1.getD k dTrade).entryRaw
         = ((run_sma_cross klines fast slow cfg).1.getD (k+1) dTrade).entryRaw)
    (hw1 : 0 < ((run_sma_cross klines fast slow cfg).1.getD k dTrade).pnl)
    (hw2 : 0 < ((run_sma_cross klines fast slow cfg).1.getD (k+1) dTrade).pnl) :
    ((run_sma_cross klines fast slow cfg).1.getD k dTrade).units
      < ((run_sma_cross klines fast slow cfg).1.getD (k+1) dTrade).units := by
  have hrw : (run_sma_cross klines fast slow cfg).1
      = (simEnd klines fast slow cfg).trades := rfl
  rw [hrw] at hk hpr hw1 hw2 ⊢
  have hk0 : k < (simEnd klines fast slow cfg).trades.length := Nat.lt_of_succ_lt hk
  obtain ⟨hu1, hraw1, -, hidx1, -, hpnl1, -, -⟩ :=
    (simEnd_spec klines fast slow cfg).hTr k hk0
  obtain ⟨hu2, -, -, -, -, -, -, -⟩ :=
    (simEnd_spec klines fast slow cfg).hTr (k+1) hk
  have hQ : ∀ E r : ℚ, qtyUnits cfg E r = E / r := by
    intro E r
    unfold qtyUnits
    rw [if_pos hq1, hq2]
    ring
  have hS := sumPnlX_take_succ (simEnd klines fast slow cfg).trades k hk0
  have hpx : 0 < ((simEnd klines fast slow cfg).trades.getD k dTrade).pnlExact := by
    apply pyRound_pos _ 4
    rw [← hpnl1]
    exact hw1
  have hrpos : 0 < ((simEnd klines fast slow cfg).trades.getD k dTrade).entryRaw := by
    rw [hraw1]
    have hlen : ((simEnd klines fast slow cfg).trades.getD k dTrade).entryIdx
        < (klines.map (·.open_)).length := by
      rw [List.length_map]; exact hidx1
    rw [List.getD_eq_getElem _ _ hlen, List.getElem_map]
    exact hop _ (List.getElem_mem _)
  have hdiff : ((simEnd klines fast slow cfg).trades.getD (k+1) dTrade).units
      - ((simEnd klines fast slow cfg).trades.getD k dTrade).units
      = ((simEnd klines fast slow cfg).trades.getD k dTrade).pnlExact
        / ((simEnd klines fast slow cfg).trades.getD k dTrade).entryRaw := by
    rw [hu1, hu2, ← hpr, hQ, hQ, hS]
    ring
  have hpos := div_pos hpx hrpos
  linarith

/-- C8 witness: on `bars2` with 100% equity sizing the two winning trades
enter at price 10 with 1000 then 1100 units. -/
theorem c8_witness :
    ((run_sma_cross bars2 1 2 cfgPct).1.getD 0 dTrade).units
      < ((run_sma_cross bars2 1 2 cfgPct).1.getD 1 dTrade).units :=
  c8_compounding bars2 1 2 cfgPct 0 (by decide) (by decide) (by decide)
    (by decide) (by decide) (by decide) (by decide)

/-! ## Claim C5: zero-trade neutrality -/

/-- C5: with an empty trade list both metrics calculators return the
all-zero/neutral record with `final_equity = initial_capital`. -/
theorem c5_zero_trades (ec : List ℚ) (cap : ℚ) :
    calc_basic_metrics [] ec cap = .ok ⟨0, 0, 0, 0, 0, 0, cap, 0, 0⟩ ∧
    calc_metrics ⟨[], ec⟩ cap = .ok ⟨0, 0, 0, 0, 0, .zero, cap, 0, 0, [], [], []⟩ := by
  constructor <;> rfl

/-! ## Claim C9: division guard for profit factor -/

/-- C9: the ε-guard protects only the *empty-losses* case. With trades
`[pnl 5, pnl 0]` the losses list is `[0]`, so `gross_loss = |0| = 0`:
`calc_basic_metrics` divides by zero (Python `ZeroDivisionError`), and
`calc_metrics` substitutes `profit_factor = 0` — while the claimed formula
`gross_profit / max(gross_loss, 1e-9)` would give `5e9 ≠ 0`. -/
theorem c9_division_guard :
    calc_basic_metrics [{ dTrade with pnl := 5 }, dTrade] [10000] 10000
      = .error .zeroDiv ∧
    (calc_metrics ⟨[⟨"2024-01-01", 5⟩, ⟨"2024-01-02", 0⟩], [1, 2, 3, 4]⟩ 10000).map
        (·.profit_factor) = .ok 0 ∧
    (5 : ℚ) / max (0 : ℚ) (1/10^9) = 5000000000 := by
  refine ⟨by decide, by decide, ?_⟩
  norm_num

/-! ## Per-field forms of `calc_metrics` on a non-empty trade list -/

theorem calc_metrics_curve (trades : List OTrade) (ec : List ℚ) (cap : ℚ)
    (hne : trades ≠ []) (hcap : cap ≠ 0) :
    (calc_metrics ⟨trades, ec⟩ cap).map (·.equity_curve)
      = .ok (tradeEquity cap trades) := by
  simp only [calc_metrics]
  rw [if_neg hne, if_neg hcap]
  rfl

theorem calc_metrics_dd (trades : List OTrade) (ec : List ℚ) (cap : ℚ)
    (hne : trades ≠ []) (hcap : cap ≠ 0) :
    (calc_metrics ⟨trades, ec⟩ cap).map (·.max_drawdown)
      = .ok (pyRound (listMax (ddList (tradeEquity cap trades))) 2) := by
  simp only [calc_metrics]
  rw [if_neg hne, if_neg hcap]
  rfl

theorem calc_metrics_fe (trades : List OTrade) (ec : List ℚ) (cap : ℚ)
    (hne : trades ≠ []) (hcap : cap ≠ 0) :
    (calc_metrics ⟨trades, ec⟩ cap).map (·.final_equity)
      = .ok (pyRound ((tradeEquity cap trades).getLast?.getD 0) 2) := by
  simp only [calc_metrics]
  rw [if_neg hne, if_neg hcap]
  rfl

theorem calc_metrics_tt (trades : List OTrade) (ec : List ℚ) (cap : ℚ)
    (hne : trades ≠ []) (hcap : cap ≠ 0) :
    (calc_metrics ⟨trades, ec⟩ cap).map (·.total_trades) = .ok trades.length := by
  simp only [calc_metrics]
  rw [if_neg hne, if_neg hcap]
  rfl

theorem calc_metrics_sharpe (trades : List OTrade) (ec : List ℚ) (cap : ℚ)
    (hne : trades ≠ []) (hcap : cap ≠ 0) :
    (calc_metrics ⟨trades, ec⟩ cap).map (·.sharpe_ratio)
      = .ok (sharpeCalc ⟨trades, ec⟩ cap (tradeEquity cap trades)) := by
  simp only [calc_metrics]
  rw [if_neg hne, if_neg hcap]
  rfl

/-! ## The trade-equity fold equals its prefix-sum specification -/

theorem tradeEquity_fold (ts : List OTrade) :
    ∀ (acc : List ℚ) (r : ℚ),
    (ts.foldl
      (fun (st : List ℚ × ℚ) t =>
        let rr := st.2 + t.pnl
        (st.1 ++ [pyRound rr 2], rr)) (acc, r)).1
    = acc ++ (List.range ts.length).map
        (fun k => pyRound (r + ((ts.map (·.pnl)).take (k + 1)).sum) 2) := by
  induction ts with
  | nil => intro acc r; simp
  | cons t ts ih =>
      intro acc r
      rw [List.foldl_cons]
      rw [ih (acc ++ [pyRound (r + t.pnl) 2]) (r + t.pnl)]
      rw [List.length_cons, List.range_succ_eq_map, List.map_cons, List.map_map]
      have h0 : pyRound (r + ((List.map (·.pnl) (t :: ts)).take (0 + 1)).sum) 2
          = pyRound (r + t.pnl) 2 := by
        simp
      have hfun :
          ((fun k => pyRound (r + ((List.map (·.pnl) (t :: ts)).take (k + 1)).sum) 2)
              ∘ Nat.succ)
          = (fun k => pyRound (r + t.pnl + ((List.map (·.pnl) ts).take (k + 1)).sum) 2) := by
        funext k
        simp only [Function.comp_apply, List.map_cons, List.take_succ_cons, List.sum_cons]
        congr 1
        ring
      rw [h0, hfun]
      simp

theorem tradeEquity_spec (cap : ℚ) (ts : List OTrade) :
    tradeEquity cap ts = cumCurveSpec cap (ts.map (·.pnl)) := by
  unfold tradeEquity cumCurveSpec
  rw [tradeEquity_fold ts [] cap]
  simp [List.length_map]

theorem cumCurveSpec_getLast (cap : ℚ) (pnls : List ℚ) (hne : pnls ≠ []) :
    (cumCurveSpec cap pnls).getLast?.getD 0 = pyRound (cap + pnls.sum) 2 := by
  unfold cumCurveSpec
  have hlen : pnls.length = (pnls.length - 1) + 1 :=
    (Nat.succ_pred_eq_of_pos (List.length_pos.mpr hne)).symm
  rw [hlen, List.range_succ, List.map_append, List.map_cons, List.map_nil,
    ← List.cons_append, List.getLast?_concat]
  simp only [Option.getD_some]
  rw [← hlen, List.take_length]

/-! ## Claim C10: trade-level curve replaces the bar-level curve -/

/-- C10: for a non-empty trade list `calc_metrics` returns as `equity_curve`
the trade-level curve `[cap, round(cap + pnl_1, 2), ...]` (length
`total_trades + 1`, starting at the initial capital, ending at
`final_equity`), and computes `max_drawdown` from that curve, independent of
the supplied bar-level `equity_curve`. -/
theorem c10_trade_level_curve (trades : List OTrade) (ec ec' : List ℚ) (cap : ℚ)
    (hne : trades ≠ []) (hcap : cap ≠ 0) :
    (calc_metrics ⟨trades, ec⟩ cap).map (·.equity_curve)
        = .ok (cumCurveSpec cap (trades.map (·.pnl))) ∧
    (cumCurveSpec cap (trades.map (·.pnl))).length = trades.length + 1 ∧
    (cumCurveSpec cap (trades.map (·.pnl))).head? = some cap ∧
    (calc_metrics ⟨trades, ec⟩ cap).map (·.final_equity)
        = .ok ((cumCurveSpec cap (trades.map (·.pnl))).getLast?.getD 0) ∧
    (calc_metrics ⟨trades, ec⟩ cap).map (·.max_drawdown)
        = .ok (pyRound (listMax (ddList (cumCurveSpec cap (trades.map (·.pnl))))) 2) ∧
    (calc_metrics ⟨trades, ec⟩ cap).map (·.max_drawdown)
        = (calc_metrics ⟨trades, ec'⟩ cap).map (·.max_drawdown) := by
  have hspec := tradeEquity_spec cap trades
  have hmne : trades.map (·.pnl) ≠ [] := by
    intro h
    exact hne (List.map_eq_nil.mp h)
  refine ⟨?_, ?_, rfl, ?_, ?_, ?_⟩
  · rw [calc_metrics_curve trades ec cap hne hcap, hspec]
  · simp [cumCurveSpec]
  · rw [calc_metrics_fe trades ec cap hne hcap, hspec,
      cumCurveSpec_getLast cap _ hmne, pyRound_idem]
  · rw [calc_metrics_dd trades ec cap hne hcap, hspec]
  · rw [calc_metrics_dd trades ec cap hne hcap,
      calc_metrics_dd trades ec' cap hne hcap]

/-- C10 witness: the trade-level-curve theorem instantiated on one trade of
pnl 100 with an empty bar-level curve. -/
theorem c10_witness :
    (calc_metrics ⟨[⟨"2024-01-01", 100⟩], []⟩ 10000).map (·.equity_curve)
        = .ok (cumCurveSpec 10000 (([⟨"2024-01-01", 100⟩] : List OTrade).map (·.pnl))) ∧
    (calc_metrics ⟨[⟨"2024-01-01", 100⟩], []⟩ 10000).map (·.max_drawdown)
        = (calc_metrics ⟨[⟨"2024-01-01", 100⟩], [5, 1, 5]⟩ 10000).map (·.max_drawdown) :=
  ⟨(c10_trade_level_curve [⟨"2024-01-01", 100⟩] [] [5, 1, 5] 10000
      (by decide) (by decide)).1,
   (c10_trade_level_curve [⟨"2024-01-01", 100⟩] [] [5, 1, 5] 10000
      (by decide) (by decide)).2.2.2.2.2⟩

/-! ## Claim C6: Sharpe-ratio rule -/

theorem sharpeCalc_zero_of_short (result : StratResult) (cap : ℚ) (eqarr : List ℚ)
    (h : result.equity_curve.length ≤ 2) : sharpeCalc result cap eqarr = .zero := by
  unfold sharpeCalc
  rw [if_neg (not_lt.mpr h)]

theorem sharpeCalc_val_inv (result : StratResult) (cap : ℚ) (eqarr : List ℚ)
    (mu v : ℚ) (h : sharpeCalc result cap eqarr = .val mu v) :
    0 < v ∧ 2 < result.equity_curve.length := by
  unfold sharpeCalc at h
  by_cases h1 : 2 < result.equity_curve.length
  · rw [if_pos h1] at h
    by_cases h2 : 2 < (dailyEq cap result.trades).length
    · rw [if_pos h2] at h
      by_cases h3 : 0 < npVar (npDiffRets (cap ::
          (pySort (fun a b => pyStrLe a.1 b.1) (dailyEq cap result.trades)).map (·.2)))
      · rw [if_pos h3] at h
        injection h with hmu hv
        rw [← hv]
        exact ⟨h3, h1⟩
      · rw [if_neg h3] at h
        cases h
    · rw [if_neg h2] at h
      by_cases h3 : 0 < (npDiffRets (if dailyEq cap result.trades ≠ []
            then cap :: (dailyEq cap result.trades).map (·.2) else eqarr)).length ∧
          0 < npVar (npDiffRets (if dailyEq cap result.trades ≠ []
            then cap :: (dailyEq cap result.trades).map (·.2) else eqarr))
      · rw [if_pos h3] at h
        injection h with hmu hv
        rw [← hv]
        exact ⟨h3.2, h1⟩
      · rw [if_neg h3] at h
        cases h
  · rw [if_neg h1] at h
    cases h

theorem sharpeCalc_many_days (result : StratResult) (cap : ℚ) (eqarr : List ℚ)
    (h1 : 2 < result.equity_curve.length)
    (h2 : 2 < (dailyEq cap result.trades).length) :
    sharpeCalc result cap eqarr
      = (if 0 < npVar (npDiffRets (cap ::
            (pySort (fun a b => pyStrLe a.1 b.1) (dailyEq cap result.trades)).map (·.2)))
         then .val
            (npMean (npDiffRets (cap ::
              (pySort (fun a b => pyStrLe a.1 b.1) (dailyEq cap result.trades)).map (·.2))))
            (npVar (npDiffRets (cap ::
              (pySort (fun a b => pyStrLe a.1 b.1) (dailyEq cap result.trades)).map (·.2))))
         else .zero) := by
  unfold sharpeCalc
  rw [if_pos h1, if_pos h2]

/-- C6 (amended): `calc_metrics` returns Sharpe 0 whenever the *bar-level
equity curve* has at most 2 points; whenever it returns a computed value
`mean/std * sqrt 252` the variance of the daily returns is positive and the
curve had more than 2 points; and with more than 2 distinct exit days it uses
the key-sorted per-day running-equity series prefixed by the initial capital.
(The guard is on the curve length, not on the number of distinct days.) -/
theorem c6_sharpe_rule (trades : List OTrade) (ec : List ℚ) (cap : ℚ)
    (hcap : cap ≠ 0) :
    (ec.length ≤ 2 →
      (calc_metrics ⟨trades, ec⟩ cap).map (·.sharpe_ratio) = .ok .zero) ∧
    (∀ mu v, (calc_metrics ⟨trades, ec⟩ cap).map (·.sharpe_ratio) = .ok (.val mu v) →
      0 < v ∧ 2 < ec.length) ∧
    (2 < (dailyEq cap trades).length → 2 < ec.length →
      (calc_metrics ⟨trades, ec⟩ cap).map (·.sharpe_ratio)
        = .ok (if 0 < npVar (npDiffRets (cap ::
                (pySort (fun a b => pyStrLe a.1 b.1) (dailyEq cap trades)).map (·.2)))
            then .val
              (npMean (npDiffRets (cap ::
                (pySort (fun a b => pyStrLe a.1 b.1) (dailyEq cap trades)).map (·.2))))
              (npVar (npDiffRets (cap ::
                (pySort (fun a b => pyStrLe a.1 b.1) (dailyEq cap trades)).map (·.2))))
            else .zero)) := by
  by_cases hne : trades = []
  · subst hne
    have h0 : (calc_metrics ⟨[], ec⟩ cap).map (·.sharpe_ratio) = .ok .zero := rfl
    refine ⟨fun _ => h0, ?_, ?_⟩
    · intro mu v h
      rw [h0] at h
      injection h with h1
      cases h1
    · intro hd hec
      have : (dailyEq cap ([] : List OTrade)).length = 0 := rfl
      omega
  · have hs := calc_metrics_sharpe trades ec cap hne hcap
    refine ⟨?_, ?_, ?_⟩
    · intro hlen
      rw [hs, sharpeCalc_zero_of_short ⟨trades, ec⟩ cap (tradeEquity cap trades) hlen]
    · intro mu v h
      rw [hs] at h
      injection h with h1
      exact sharpeCalc_val_inv ⟨trades, ec⟩ cap (tradeEquity cap trades) mu v h1
    · intro hd hec
      rw [hs, sharpeCalc_many_days ⟨trades, ec⟩ cap (tradeEquity cap trades) hec hd]

/-- C6 counterexample: two trades exiting on two distinct days (fewer than 3)
with a 4-point bar-level curve: the fallback branch still computes a nonzero
Sharpe — `mean = 401/20200 ≠ 0` and positive variance — although the claim
requires 0 when there are fewer than 3 distinct days. -/
theorem c6_counterexample :
    (dailyEq 10000 [⟨"2024-01-01", 100⟩, ⟨"2024-01-02", 300⟩]).length = 2 ∧
    (calc_metrics ⟨[⟨"2024-01-01", 100⟩, ⟨"2024-01-02", 300⟩],
        [10000, 10000, 10000, 10000]⟩ 10000).map (·.sharpe_ratio)
      = .ok (.val (401/20200) (39601/408040000)) ∧
    (401/20200 : ℚ) ≠ 0 ∧ (0 : ℚ) < 39601/408040000 := by
  decide

/-- C6 witness: the amended rule instantiated at a single trade with an
empty bar-level curve (Sharpe 0 because the curve is short). -/
theorem c6_witness :
    (calc_metrics ⟨[⟨"2024-01-01", 100⟩], []⟩ 10000).map (·.sharpe_ratio)
      = .ok .zero :=
  (c6_sharpe_rule [⟨"2024-01-01", 100⟩] [] 10000 (by decide)).1 (by decide)

/-! ## Claim C3 / C4 support lemmas -/

theorem insLe_length {α : Type} (le : α → α → Bool) (x : α) (l : List α) :
    (insLe le x l).length = l.length + 1 := by
  induction l with
  | nil => rfl
  | cons y ys ih =>
      unfold insLe
      by_cases h : le y x
      · rw [if_pos h]
        simp [ih]
      · rw [if_neg h]
        simp

theorem pySort_length {α : Type} (le : α → α → Bool) (l : List α) :
    (pySort le l).length = l.length := by
  have haux : ∀ (l : List α) (acc : List α),
      (l.foldl (fun acc x => insLe le x acc) acc).length = acc.length + l.length := by
    intro l
    induction l with
    | nil => intro acc; simp
    | cons y ys ih =>
        intro acc
        rw [List.foldl_cons, ih, insLe_length]
        simp only [List.length_cons]
        omega
  unfold pySort
  rw [haux]
  simp

theorem eliteInsert_length (sortBy : String) (topN : ℕ) (elite : List (ℚ × ℕ))
    (entry : ℚ × ℕ) :
    (eliteInsert sortBy topN elite entry).length ≤ elite.length + 1 ∧
    (elite.length ≤ topN → (eliteInsert sortBy topN elite entry).length ≤ topN) := by
  unfold eliteInsert
  have hlen : (pySort (if isMinimize sortBy then fun (a b : ℚ × ℕ) => decide (a.1 ≤ b.1)
      else fun a b => decide (b.1 ≤ a.1)) (elite ++ [entry])).length
      = elite.length + 1 := by
    rw [pySort_length]
    simp
  by_cases h : topN < (pySort (if isMinimize sortBy
      then fun (a b : ℚ × ℕ) => decide (a.1 ≤ b.1)
      else fun a b => decide (b.1 ≤ a.1)) (elite ++ [entry])).length
  · rw [if_pos h]
    rw [List.length_dropLast, hlen]
    constructor
    · omega
    · intro h2
      rw [hlen] at h
      omega
  · rw [if_neg h]
    rw [hlen]
    rw [hlen] at h
    constructor
    · omega
    · intro h2
      omega

theorem countOk_le_length : ∀ (n : ℕ) (ts : List TrialIn), countOk n ts ≤ ts.length := by
  intro n ts
  induction ts generalizing n with
  | nil => simp [countOk]
  | cons t ts ih =>
      unfold countOk
      have := ih (n + 1)
      by_cases h : (evalTrial t n).isSome <;> simp [h] <;> omega

theorem runTrials_inv (sortBy : String) (topN : ℕ) :
    ∀ (ts : List TrialIn) (n : ℕ) (st : OptSt),
    (runTrials sortBy topN n st ts).results.length
        = st.results.length + countOk n ts ∧
    (st.elite.length ≤ topN → (runTrials sortBy topN n st ts).elite.length ≤ topN) ∧
    (runTrials sortBy topN n st ts).elite.length ≤ st.elite.length + countOk n ts := by
  intro ts
  induction ts with
  | nil =>
      intro n st
      refine ⟨by simp [runTrials, countOk], fun h => by simpa [runTrials] using h,
        by simp [runTrials, countOk]⟩
  | cons t ts ih =>
      intro n st
      unfold runTrials countOk
      cases hev : evalTrial t n with
      | none =>
          have h0 : (objective sortBy topN st n t).1 = st := by
            unfold objective
            rw [hev]
          rw [h0]
          obtain ⟨i1, i2, i3⟩ := ih (n + 1) st
          refine ⟨by rw [i1]; simp, i2, by simpa using i3⟩
      | some v =>
          have h0 : (objective sortBy topN st n t).1
              = { results := st.results ++ [n]
                  elite := eliteInsert sortBy topN st.elite (v, n)
                  completed := st.completed + 1
                  best :=
                    match st.best with
                    | Option.none => some v
                    | some b => if isBetter sortBy v b then some v else some b } := by
            unfold objective
            rw [hev]
          rw [h0]
          obtain ⟨i1, i2, i3⟩ := ih (n + 1)
            { results := st.results ++ [n]
              elite := eliteInsert sortBy topN st.elite (v, n)
              completed := st.completed + 1
              best :=
                match st.best with
                | Option.none => some v
                | some b => if isBetter sortBy v b then some v else some b }
          obtain ⟨e1, e2⟩ := eliteInsert_length sortBy topN st.elite (v, n)
          refine ⟨?_, ?_, ?_⟩
          · rw [i1]
            simp only [List.length_append, List.length_cons, List.length_nil,
              Option.isSome_some, if_true]
            omega
          · intro h
            exact i2 (e2 h)
          · refine le_trans i3 ?_
            simp only [Option.isSome_some, if_true]
            omega

theorem addRanks_length {α : Type} : ∀ (i : ℕ) (l : List α),
    (addRanks i l).length = l.length := by
  intro i l
  induction l generalizing i with
  | nil => rfl
  | cons x xs ih => simp [addRanks, ih]

theorem addRanks_map_fst {α : Type} : ∀ (i : ℕ) (l : List α),
    (addRanks i l).map (·.1) = List.range' i l.length := by
  intro i l
  induction l generalizing i with
  | nil => rfl
  | cons x xs ih => simp [addRanks, List.range'_succ, ih]

/-! ## Claim C3: search completeness -/

/-- C3 (amended): a finished run holds exactly one lightweight summary per
*successfully evaluated* trial (sentinel-scored trials are not summarised),
which is at most `n_trials`; and at most `min(n_trials, top_n)` elite entries
carrying contiguous ranks `1..k`. -/
theorem c3_search_completeness (sortBy : String) (topN : ℕ) (ts : List TrialIn) :
    (runTrials sortBy topN 0 optInit ts).results.length = countOk 0 ts ∧
    countOk 0 ts ≤ ts.length ∧
    (topResults topN (runTrials sortBy topN 0 optInit ts)).length
        ≤ min ts.length topN ∧
    (topResults topN (runTrials sortBy topN 0 optInit ts)).map (·.1)
        = List.range' 1 (topResults topN (runTrials sortBy topN 0 optInit ts)).length := by
  obtain ⟨i1, i2, i3⟩ := runTrials_inv sortBy topN ts 0 optInit
  have hco := countOk_le_length 0 ts
  have hE : optInit.elite.length = 0 := rfl
  have hR : optInit.results.length = 0 := rfl
  refine ⟨by rw [i1, hR]; omega, hco, ?_, ?_⟩
  · unfold topResults
    rw [addRanks_length, List.length_take]
    rw [hE] at i3
    omega
  · unfold topResults
    rw [addRanks_map_fst, addRanks_length]

/-- C3 counterexample: a single trial whose decision function raises a
non-numba error is sentinel-scored and leaves *zero* lightweight summaries,
not `n_trials = 1` of them. -/
theorem c3_counterexample :
    (runTrials "profit_pct" 5 0 optInit
        [⟨.error .other, .error .other⟩]).results.length = 0 ∧
    ([(⟨.error .other, .error .other⟩ : TrialIn)] : List TrialIn).length = 1 ∧
    (runTrials "profit_pct" 5 0 optInit
        [⟨.error .other, .error .other⟩]).results.length
      ≠ ([(⟨.error .other, .error .other⟩ : TrialIn)] : List TrialIn).length := by
  decide

/-! ## Claim C4: sentinel-score fault isolation -/

theorem evalTrial_error_other (t : TrialIn) (n : ℕ)
    (hp : t.primary = .error .other) : evalTrial t n = Option.none := by
  unfold evalTrial
  rw [hp]
  exact if_neg (by rintro ⟨h1, h2⟩; cases h1)

theorem evalTrial_allFail (t : TrialIn) (n : ℕ)
    (h1 : t.primary.isOk = false) (h2 : t.fallback.isOk = false) :
    evalTrial t n = Option.none := by
  unfold evalTrial
  cases hp : t.primary with
  | ok v => rw [hp] at h1; simp [Except.isOk, Except.toBool] at h1
  | error e =>
      dsimp only
      by_cases hc : e = .numbaTyping ∧ n ≤ 1
      · rw [if_pos hc]
        cases hf : t.fallback with
        | ok v => rw [hf] at h2; simp [Except.isOk, Except.toBool] at h2
        | error e2 => rfl
      · rw [if_neg hc]

theorem runTrials_allFail (sortBy : String) (topN : ℕ) :
    ∀ (ts : List TrialIn) (n : ℕ) (st : OptSt),
    (∀ u ∈ ts, u.primary.isOk = false ∧ u.fallback.isOk = false) →
    runTrials sortBy topN n st ts = st := by
  intro ts
  induction ts with
  | nil => intro n st hts; rfl
  | cons t ts ih =>
      intro n st hts
      unfold runTrials
      have ht := hts t (List.mem_cons_self t ts)
      have h0 : (objective sortBy topN st n t).1 = st := by
        unfold objective
        rw [evalTrial_allFail t n ht.1 ht.2]
      rw [h0]
      exact ih (n + 1) st (fun u hu => hts u (List.mem_cons_of_mem t hu))

/-- C4: a trial whose decision function raises a non-numba-typing error is
scored `+inf` (minimize) / `-inf` (maximize) with the shared state untouched,
and a decision function failing on every combination still yields a completed
run with zero summaries and zero elite entries. -/
theorem c4_sentinel_isolation (sortBy : String) (topN : ℕ) (st : OptSt)
    (number : ℕ) (t : TrialIn) (ts : List TrialIn) (n0 : ℕ)
    (hp : t.primary = .error .other)
    (hts : ∀ u ∈ ts, u.primary.isOk = false ∧ u.fallback.isOk = false) :
    objective sortBy topN st number t = (st, sentinel sortBy) ∧
    sentinel sortBy = (if isMinimize sortBy then Score.posInf else Score.negInf) ∧
    runTrials sortBy topN n0 optInit ts = optInit ∧
    topResults topN (runTrials sortBy topN n0 optInit ts) = [] := by
  refine ⟨?_, rfl, runTrials_allFail sortBy topN ts n0 optInit hts, ?_⟩
  · unfold objective
    rw [evalTrial_error_other t number hp]
  · rw [runTrials_allFail sortBy topN ts n0 optInit hts]
    unfold topResults optInit
    simp [addRanks]

/-- C4 witness: the isolation theorem instantiated with `max_drawdown`
(minimize) and one failing trial. -/
theorem c4_witness :
    objective "max_drawdown" 3 optInit 0 ⟨.error .other, .error .other⟩
      = (optInit, sentinel "max_drawdown") ∧
    sentinel "max_drawdown"
      = (if isMinimize "max_drawdown" then Score.posInf else Score.negInf) ∧
    runTrials "max_drawdown" 3 0 optInit [⟨.error .other, .error .other⟩] = optInit ∧
    topResults 3 (runTrials "max_drawdown" 3 0 optInit
        [⟨.error .other, .error .other⟩]) = [] :=
  c4_sentinel_isolation "max_drawdown" 3 optInit 0
    ⟨.error .other, .error .other⟩ [⟨.error .other, .error .other⟩] 0
    (by decide) (by decide)

end Pine
